import Mathlib

/-!
Verification of the deno-enigma repository (src/enigma.ts): a shallow
embedding of the Enigma machine implementation in Lean 4, and proofs of the
specification's claims about it.

Modelling conventions:
* JS `number` values flowing through the cipher pipeline are integers in
  practice (they originate from `charCodeAt` arithmetic); they are modelled
  as `Int`.  The separate `JSNum` type models general JS numbers (including
  non-integral and non-finite ones) for the validation claims.
* JS `%` is truncated remainder; it is modelled by `Int.tmod`.
* A JS in-bounds array read `m[n]` is modelled by `readAt`; every read the
  machine performs is at an index in `[0, 25]` (proved below), where the
  model agrees with the source.
* The mutation of `RotorState.position` is modelled by functional update:
  stateful operations return the new state.
-/

/-- Direction of a signal through a rotor (src/enigma.ts `Direction`). -/
inductive Direction where
  | Forward
  | Reverse
deriving DecidableEq, Repr

/-- Validation strictness levels (src/enigma.ts `ValidationLevel`): the
source compares them numerically (`vl >= ValidationLevel.Symmetric`). -/
inductive ValidationLevel where
  | Basic
  | Symmetric
  | Reflective
deriving DecidableEq, Repr

/-- Numeric value of a `ValidationLevel`, as the TS enum assigns it. -/
def ValidationLevel.toNat : ValidationLevel → Nat
  | .Basic => 0
  | .Symmetric => 1
  | .Reflective => 2

/-- Which invariant a `Base.validate` run reports broken: one constructor
per `throw` site of the validation helpers in src/enigma.ts. -/
inductive VErr where
  | length
  | value
  | unique
  | symmetric
  | reflective
deriving DecidableEq, Repr

/-- JS truncated remainder by 26 composed as in `Base.mod`:
`((n % 26) + 26) % 26` (src/enigma.ts line 93). -/
def Base.mod (n : Int) : Int := (n.tmod 26 + 26).tmod 26

/-- `"A".charCodeAt(0)` (src/enigma.ts `Base.ALPHA`). -/
def Base.ALPHA : Int := 65

/-- Characters matched by the JS regex `\s` (whitespace), identified by
code point. -/
def isJsSpace (c : Char) : Bool :=
  c.toNat = 9 || c.toNat = 10 || c.toNat = 11 || c.toNat = 12 || c.toNat = 13 ||
  c.toNat = 32 || c.toNat = 160 || c.toNat = 0x1680 ||
  (0x2000 ≤ c.toNat && c.toNat ≤ 0x200A) ||
  c.toNat = 0x2028 || c.toNat = 0x2029 || c.toNat = 0x202F ||
  c.toNat = 0x205F || c.toNat = 0x3000 || c.toNat = 0xFEFF

/-- `Base.charToNumber`: uppercase the character and subtract the code of
`"A"` (src/enigma.ts lines 99-101). -/
def Base.charToNumber (c : Char) : Int := (c.toUpper.toNat : Int) - Base.ALPHA

/-- `Base.stringToNumbers`: uppercase, strip all whitespace, convert each
character (src/enigma.ts lines 103-109). -/
def Base.stringToNumbers (s : String) : List Int :=
  (((s.data.map Char.toUpper).filter fun c => !isJsSpace c).map Base.charToNumber)

/-- `Base.numbersToString`: `String.fromCharCode(n + ALPHA)` for each
number (src/enigma.ts lines 111-113). -/
def Base.numbersToString (nn : List Int) : String :=
  String.mk (nn.map fun n => Char.ofNat (n + Base.ALPHA).toNat)

/-- JS `m[v]` for an arbitrary numeric index into a 26-element integer
array: `some` element when the index is an in-range integer, `none`
(undefined) otherwise.  Used by the validator's symmetry check. -/
def jsGetInt (m : List Int) (v : Int) : Option Int :=
  if 0 ≤ v ∧ v.toNat < m.length then some (m.getD v.toNat 0) else none

/-- `Base.validate` (src/enigma.ts lines 31-43) on an integer mapping,
returning the first broken invariant in the source's check order, or
`none` when validation passes.  The finiteness test of `assertValue` is
vacuous on `Int` (see `Base.validateNum` for the general JS-number model);
the range test and everything later are as in the source. -/
def Base.validateErr (m : List Int) (vl : ValidationLevel) : Option VErr :=
  if m.length ≠ 26 then some .length
  else if ∃ v ∈ m, v < 0 ∨ 26 ≤ v then some .value
  else if m.dedup.length ≠ 26 then some .unique
  else if 1 ≤ vl.toNat ∧ ∃ i ∈ List.range m.length, jsGetInt m (m.getD i 0) ≠ some i then
    some .symmetric
  else if vl.toNat = 2 ∧ ∃ i ∈ List.range m.length, m.getD i 0 = (i : Int) then
    some .reflective
  else none

/-- JS in-bounds array read `m[n]` at an integer index: all reads the
machine performs are at indices in `[0, m.length)` (proved in the totality
results below), where `List.getD` returns the actual element. -/
def readAt (m : List Int) (n : Int) : Int := m.getD n.toNat 0

/-- `Reflector` (src/enigma.ts lines 118-144): owns one mapping. -/
structure Reflector where
  mapping : List Int
deriving DecidableEq, Repr

/-- `Reflector.encode`: a direct lookup, no direction parameter
(src/enigma.ts lines 141-143). -/
def Reflector.encode (r : Reflector) (n : Int) : Int := readAt r.mapping n

/-- The `Reflector` constructor (src/enigma.ts lines 122-131): parse the
wiring string and validate at `Reflective` strictness. -/
def Reflector.make (config : String) : Except VErr Reflector :=
  let mapping := Base.stringToNumbers config
  match Base.validateErr mapping .Reflective with
  | some e => .error e
  | none => .ok ⟨mapping⟩

/-- `ReflectorLabel` (src/enigma.ts): the three historical reflectors. -/
inductive ReflectorLabel where
  | A
  | B
  | C
deriving DecidableEq, Repr

/-- `Reflector.create` (src/enigma.ts lines 126-138). -/
def Reflector.create : ReflectorLabel → Except VErr Reflector
  | .A => Reflector.make "EJMZALYXVBWFCRQUONTSPIKHGD"
  | .B => Reflector.make "YRUHQSLDPXNGOKMIEBFZCWVJAT"
  | .C => Reflector.make "FVPJIAOYEDRZXWGCTKUQSBNMHL"

/-- `PlugBoard` (src/enigma.ts lines 146-180): owns one mapping. -/
structure PlugBoard where
  mapping : List Int
deriving DecidableEq, Repr

/-- `PlugBoard.encode`: a direct lookup (src/enigma.ts lines 178-180). -/
def PlugBoard.encode (p : PlugBoard) (n : Int) : Int := readAt p.mapping n

/-- The initial identity mapping the `PlugBoard` constructor pushes
(src/enigma.ts lines 150-154). -/
def identityMapping : List Int := (List.range 26).map fun i => (i : Int)

/-- A character matched by the JS regex `\w` (ASCII word character). -/
def isWordChar (c : Char) : Bool := c.isAlpha || c.isDigit || c = '_'

/-- JS `replace(/\s/, "")`: remove only the first whitespace character
(the `PlugBoard` constructor uses `replace`, not `replaceAll`). -/
def removeFirstWs : List Char → List Char
  | [] => []
  | c :: rest => if isJsSpace c then rest else c :: removeFirstWs rest

/-- JS `match(/\w\w/g)`: scan left to right, taking non-overlapping pairs
of adjacent word characters and skipping a character when no pair starts
at it. -/
def matchWordPairs : List Char → List (Char × Char)
  | [] => []
  | [_] => []
  | a :: b :: rest =>
    if isWordChar a && isWordChar b then (a, b) :: matchWordPairs rest
    else matchWordPairs (b :: rest)

/-- JS assignment `m[idx] = v` on a 26-element array at an integer index
that stays within the existing bounds: a negative index creates only a
non-element property (the array part is unchanged), which is what the
model returns.  An index beyond the end would lengthen the array; the
plugboard constructor model rejects that case up front (see
`PlugBoard.make`). -/
def jsSet (m : List Int) (idx : Int) (v : Int) : List Int :=
  if 0 ≤ idx ∧ idx.toNat < m.length then m.set idx.toNat v else m

/-- One parsed plugboard pair applied to the mapping: `mapping[xN] = yN;
mapping[yN] = xN` (src/enigma.ts lines 163-170). -/
def applySwap (m : List Int) (p : Char × Char) : List Int :=
  let xN := Base.charToNumber p.1
  let yN := Base.charToNumber p.2
  jsSet (jsSet m xN yN) yN xN

/-- The `PlugBoard` constructor (src/enigma.ts lines 154-176): start from
the identity, uppercase the config, remove its first whitespace, take the
`\w\w` pairs, apply each as a swap, then validate at `Symmetric`
strictness.  A pair character whose code number is `26` or more (only
`_` among ASCII word characters) would make the JS array grow past 26
elements, after which `assertLength` throws; the model returns that
length error directly. -/
def PlugBoard.make (config : String) : Except VErr PlugBoard :=
  let pairs := matchWordPairs (removeFirstWs (config.data.map Char.toUpper))
  if ∃ p ∈ pairs, 26 ≤ Base.charToNumber p.1 ∨ 26 ≤ Base.charToNumber p.2 then
    .error .length
  else
    let mapping := pairs.foldl applySwap identityMapping
    match Base.validateErr mapping .Symmetric with
    | some e => .error e
    | none => .ok ⟨mapping⟩

/-- `Rotor` (src/enigma.ts lines 195-263): forward wiring, derived
reverse wiring, notch positions. -/
structure Rotor where
  mapping : List Int
  reverseMapping : List Int
  notchesAt : List Int
deriving DecidableEq, Repr

/-- `Rotor.encode` (src/enigma.ts lines 259-263): reverse direction reads
the reverse mapping, forward the forward mapping. -/
def Rotor.encode (r : Rotor) (n : Int) (direction : Direction) : Int :=
  match direction with
  | .Reverse => readAt r.reverseMapping n
  | .Forward => readAt r.mapping n

/-- The reverse mapping built by the `Rotor` constructor: start from 26
zeroes, then `reverseMapping[value] = index` for each entry of the
(already Basic-validated, hence in-range) forward mapping. -/
def buildReverse (m : List Int) : List Int :=
  (List.range m.length).foldl
    (fun acc index => acc.set (m.getD index 0).toNat (index : Int))
    (List.replicate 26 0)

/-- The `Rotor` constructor (src/enigma.ts lines 199-224): parse notches
and wiring, validate the wiring at `Basic` strictness, derive the reverse
mapping and validate it too. -/
def Rotor.make (config : String) (notches : String) : Except VErr Rotor :=
  let notchesAt := Base.stringToNumbers notches
  let mapping := Base.stringToNumbers config
  match Base.validateErr mapping .Basic with
  | some e => .error e
  | none =>
    let reverseMapping := buildReverse mapping
    match Base.validateErr reverseMapping .Basic with
    | some e => .error e
    | none => .ok ⟨mapping, reverseMapping, notchesAt⟩

/-- `RotorLabel` (src/enigma.ts): the eight historical rotors. -/
inductive RotorLabel where
  | I
  | II
  | III
  | IV
  | V
  | VI
  | VII
  | VIII
deriving DecidableEq, Repr

/-- `Rotor.create` (src/enigma.ts lines 228-257). -/
def Rotor.create : RotorLabel → Except VErr Rotor
  | .I => Rotor.make "EKMFLGDQVZNTOWYHXUSPAIBRCJ" "Q"
  | .II => Rotor.make "AJDKSIRUXBLHWTMCQGZNPYFVOE" "E"
  | .III => Rotor.make "BDFHJLCPRTXVZNYEIWGAKMUSQO" "V"
  | .IV => Rotor.make "ESOVPZJAYQUIRHXLNFTGKDCMWB" "J"
  | .V => Rotor.make "VZBRGITYUPSDNHLXAWMJQOFECK" "Z"
  | .VI => Rotor.make "JPGVOUMFYQBENHZRDKASXLICTW" "MZ"
  | .VII => Rotor.make "NZJHGRCXMYSWBOUFAIVLPEKQDT" "MZ"
  | .VIII => Rotor.make "FKQHTLXOCBJSPDZRAMEWNIUYGV" "MZ"

/-- `RotorState` (src/enigma.ts lines 265-291): a rotor plus its ring
setting and mutable position. -/
structure RotorState where
  rotor : Rotor
  ringSetting : Int
  position : Int
deriving DecidableEq, Repr

/-- `RotorState.encode` (src/enigma.ts lines 273-279): offset the symbol
by the rotational displacement, consult the static wiring, un-offset. -/
def RotorState.encode (rs : RotorState) (n : Int) (direction : Direction) : Int :=
  let p1 := Base.mod (n - rs.ringSetting + rs.position)
  let p2 := rs.rotor.encode p1 direction
  let p3 := Base.mod (p2 + rs.ringSetting - rs.position)
  p3

/-- `RotorState.advance` (src/enigma.ts lines 281-283):
`position = (position + 1) % 26` with the JS `%`. -/
def RotorState.advance (rs : RotorState) : RotorState :=
  { rs with position := (rs.position + 1).tmod 26 }

/-- `RotorState.atNotch` (src/enigma.ts lines 285-287). -/
def RotorState.atNotch (rs : RotorState) : Bool :=
  rs.rotor.notchesAt.any fun notch => notch == rs.position

/-- `RotorGroup` (src/enigma.ts lines 293-337). -/
structure RotorGroup where
  rotorStates : List RotorState
deriving DecidableEq, Repr

/-- `rs[i].atNotch()` for the stepping rule (in the source this lookup is
only reached at indices that exist). -/
def atNotchAt (rs : List RotorState) (i : Nat) : Bool :=
  match rs[i]? with
  | some r => r.atNotch
  | none => false

/-- One entry of the `shouldAdvance` array (src/enigma.ts lines 296-308):
the decisions read the pre-advance snapshot `rs`. -/
def shouldAdvanceAt (rs : List RotorState) (i : Nat) : Bool :=
  if i = rs.length - 1 then true
  else if atNotchAt rs (i + 1) then true
  else if i ≠ 0 && atNotchAt rs i then true
  else false

/-- The second pass of `RotorGroup.advanceRotorStates`: advance the states
whose decision (taken against the full snapshot `full`) says so.  `i` is
the index of the first element of `rs` within `full`. -/
def advanceFrom (full : List RotorState) (rs : List RotorState) (i : Nat) : List RotorState :=
  match rs with
  | [] => []
  | st :: rest => (if shouldAdvanceAt full i then st.advance else st) :: advanceFrom full rest (i + 1)

/-- `RotorGroup.advanceRotorStates` (src/enigma.ts lines 295-313):
decide from the snapshot, then apply. -/
def RotorGroup.advanceRotorStates (rs : List RotorState) : List RotorState :=
  advanceFrom rs rs 0

/-- `RotorGroup.advance` (src/enigma.ts lines 335-337). -/
def RotorGroup.advance (g : RotorGroup) : RotorGroup :=
  ⟨RotorGroup.advanceRotorStates g.rotorStates⟩

/-- `RotorGroup.encode` (src/enigma.ts lines 315-327): reverse direction
folds left to right (`reduce`), forward folds right to left
(`reduceRight`). -/
def RotorGroup.encode (g : RotorGroup) (n : Int) (d : Direction) : Int :=
  match d with
  | .Reverse => g.rotorStates.foldl (fun acc val => val.encode acc .Reverse) n
  | .Forward => g.rotorStates.foldr (fun val acc => val.encode acc .Forward) n

/-- `Enigma` (src/enigma.ts lines 339-398). -/
structure Enigma where
  plugboard : PlugBoard
  rotorGroup : RotorGroup
  reflector : Reflector
deriving DecidableEq, Repr

/-- `Enigma.encode` (src/enigma.ts lines 377-391): advance the rotor
group first, then thread the symbol through plugboard, rotors forward,
reflector, rotors reverse, plugboard.  The pair returned is the machine
with its post-keystroke rotor positions together with the output symbol. -/
def Enigma.encode (e : Enigma) (n : Int) : Enigma × Int :=
  let g := e.rotorGroup.advance
  let n1 := e.plugboard.encode n
  let n2 := g.encode n1 .Forward
  let n3 := e.reflector.encode n2
  let n4 := g.encode n3 .Reverse
  let n5 := e.plugboard.encode n4
  ({ e with rotorGroup := g }, n5)

/-- `Base.stringToNumbers(s).map((n) => this.encode(n))` with the machine
state threaded through the keystrokes. -/
def Enigma.encodeNumbers (e : Enigma) : List Int → Enigma × List Int
  | [] => (e, [])
  | n :: rest =>
    let step := e.encode n
    let next := step.1.encodeNumbers rest
    (next.1, step.2 :: next.2)

/-- `Enigma.encodeString` (src/enigma.ts lines 393-397). -/
def Enigma.encodeString (e : Enigma) (s : String) : Enigma × String :=
  let run := e.encodeNumbers (Base.stringToNumbers s)
  (run.1, Base.numbersToString run.2)

/-- `Enigma.create` (src/enigma.ts lines 341-375): require the rotor
list, ring-setting string and position string to have equal lengths,
then build the plugboard, the rotor states (settings and positions one
letter per rotor) and the reflector.  `none` models the constructor
throwing. -/
def Enigma.create (rotorLabel : List RotorLabel) (reflectorLabel : ReflectorLabel)
    (plugboardConfig : String) (ringSettings : String) (positions : String) : Option Enigma :=
  if rotorLabel.length = ringSettings.length ∧ ringSettings.length = positions.length then
    let ringSettingValues := Base.stringToNumbers ringSettings
    let positionValues := Base.stringToNumbers positions
    match PlugBoard.make plugboardConfig with
    | .error _ => none
    | .ok plugboard =>
      match (Rotor.create <$> rotorLabel).mapM Except.toOption with
      | none => none
      | some rotors =>
        match Reflector.create reflectorLabel with
        | .error _ => none
        | .ok reflector =>
          some ⟨plugboard,
            ⟨(List.range rotors.length).map fun index =>
              ⟨rotors.getD index ⟨[], [], []⟩,
               ringSettingValues.getD index 0,
               positionValues.getD index 0⟩⟩,
            reflector⟩
  else none

/-- A JS number as `Base.validate` can receive it: a finite value
(arbitrary, possibly non-integral, modelled as a rational) or one of the
non-finite values.  `NaN` also stands in for any non-numeric element,
which behaves like it under `Number.isFinite` and the comparisons. -/
inductive JSNum where
  | fin : ℚ → JSNum
  | nan
  | posInf
  | negInf
deriving DecidableEq, Repr

/-- JS `Number.isFinite`. -/
def JSNum.isFinite : JSNum → Bool
  | .fin _ => true
  | _ => false

/-- JS `n < 0` (false on NaN). -/
def JSNum.ltZero : JSNum → Bool
  | .fin q => decide (q < 0)
  | .nan => false
  | .posInf => false
  | .negInf => true

/-- JS `n >= 26` (false on NaN). -/
def JSNum.ge26 : JSNum → Bool
  | .fin q => decide (26 ≤ q)
  | .nan => false
  | .posInf => true
  | .negInf => false

/-- JS `m[v]` at an arbitrary numeric index: an element only when the
index is a non-negative integer below the length, `undefined` (`none`)
otherwise — a fractional, negative or non-finite index reads a
non-element property. -/
def jsGetNum (m : List JSNum) (v : JSNum) : Option JSNum :=
  match v with
  | .fin q => if 0 ≤ q.num ∧ q.den = 1 ∧ q.num.toNat < m.length then m[q.num.toNat]? else none
  | _ => none

/-- `Base.validate` (src/enigma.ts lines 31-43) on general JS numbers,
returning the first broken invariant in the source's check order.
`assertValue` tests only `Number.isFinite` and the `[0, 26)` range — it
has no integrality test.  `assertUnique` counts distinct values (the JS
original counts distinct value strings, which agree for distinct
numbers).  The symmetry pass reads `m[value]`, `undefined` when `value`
is not an in-range integer index, and compares it to the entry's index
with `!==`; the reflective pass compares each value to its index. -/
def Base.validateNum (m : List JSNum) (vl : ValidationLevel) : Option VErr :=
  if m.length ≠ 26 then some .length
  else if m.any fun x => !x.isFinite || x.ltZero || x.ge26 then some .value
  else if m.dedup.length ≠ 26 then some .unique
  else if 1 ≤ vl.toNat ∧ ∃ i ∈ List.range m.length, jsGetNum m (m.getD i .nan) ≠ some (.fin (i : ℚ)) then
    some .symmetric
  else if vl.toNat = 2 ∧ ∃ i ∈ List.range m.length, m.getD i .nan = .fin (i : ℚ) then
    some .reflective
  else none

/-- The spec's offset arithmetic helper, written exactly as §4.5 defines
it: `mod26(x) = ((x mod 26) + 26) mod 26`, with the mathematical
(Euclidean) `mod`.  Compared below with the source's `Base.mod`, which
uses the JS truncated `%`. -/
def mod26 (x : Int) : Int := ((x % 26) + 26) % 26

theorem mod26_eq_emod (x : Int) : mod26 x = x % 26 := by
  unfold mod26; omega

/-- The source's `Base.mod` (JS truncated `%`) computes the Euclidean
remainder by 26. -/
theorem Base.mod_eq_emod (n : Int) : Base.mod n = n % 26 := by
  cases n with
  | ofNat m =>
    have h1 : (Int.ofNat m).tmod 26 = Int.ofNat (m % 26) := rfl
    rw [Base.mod, h1,
      Int.tmod_eq_emod (by simp only [Int.ofNat_eq_natCast]; omega) (by norm_num)]
    simp only [Int.ofNat_eq_natCast]
    omega
  | negSucc m =>
    have h1 : (Int.negSucc m).tmod 26 = -Int.ofNat ((m + 1) % 26) := rfl
    have h2 : (m + 1) % 26 < 26 := Nat.mod_lt _ (by norm_num)
    rw [Base.mod, h1,
      Int.tmod_eq_emod (by simp only [Int.ofNat_eq_natCast]; omega) (by norm_num)]
    simp only [Int.ofNat_eq_natCast, Int.negSucc_eq]
    omega

theorem Base.mod_eq_mod26 (n : Int) : Base.mod n = mod26 n := by
  rw [Base.mod_eq_emod, mod26_eq_emod]

theorem Base.mod_nonneg (n : Int) : 0 ≤ Base.mod n := by
  rw [Base.mod_eq_emod]; omega

theorem Base.mod_lt (n : Int) : Base.mod n < 26 := by
  rw [Base.mod_eq_emod]; omega

theorem Base.mod_eq_self {n : Int} (h1 : 0 ≤ n) (h2 : n < 26) : Base.mod n = n := by
  rw [Base.mod_eq_emod]; omega

/-- The value-level wellformedness that `Basic` validation establishes
for a machine mapping: 26 entries, each in `[0, 26)`. -/
def MappingGood (m : List Int) : Prop := m.length = 26 ∧ ∀ v ∈ m, 0 ≤ v ∧ v < 26

/-- The symmetry property the `Symmetric` validation establishes:
`m[m[i]] == i` for every position. -/
def SymmGood (m : List Int) : Prop :=
  ∀ i : Nat, i < 26 → readAt m (readAt m (i : Int)) = (i : Int)

/-- Freedom from fixed points, the property the `Reflective` validation
adds. -/
def NoFix (m : List Int) : Prop := ∀ i : Nat, i < 26 → readAt m (i : Int) ≠ (i : Int)

/-- Wellformed rotor: both wirings are in-range 26-entry tables and they
invert each other, as the `Rotor` constructor guarantees. -/
def RotorGood (r : Rotor) : Prop :=
  MappingGood r.mapping ∧ MappingGood r.reverseMapping ∧
  (∀ i : Nat, i < 26 → readAt r.reverseMapping (readAt r.mapping (i : Int)) = (i : Int)) ∧
  (∀ i : Nat, i < 26 → readAt r.mapping (readAt r.reverseMapping (i : Int)) = (i : Int))

/-- Every rotor state of the group carries a wellformed rotor. -/
def GroupGood (g : RotorGroup) : Prop := ∀ st ∈ g.rotorStates, RotorGood st.rotor

/-- Everything `Enigma.create` establishes that the cipher proofs use. -/
def EnigmaGood (e : Enigma) : Prop :=
  MappingGood e.plugboard.mapping ∧ SymmGood e.plugboard.mapping ∧
  GroupGood e.rotorGroup ∧
  MappingGood e.reflector.mapping ∧ SymmGood e.reflector.mapping ∧
  NoFix e.reflector.mapping

theorem readAt_range {m : List Int} (h : MappingGood m) (n : Int) :
    0 ≤ readAt m n ∧ readAt m n < 26 := by
  unfold readAt
  rcases lt_or_ge n.toNat m.length with hb | hb
  · rw [List.getD_eq_getElem _ _ hb]
    exact h.2 _ (List.getElem_mem hb)
  · rw [List.getD_eq_default _ _ hb]
    exact ⟨by norm_num, by norm_num⟩

theorem RotorState.encode_mod_range (rs : RotorState) (n : Int) (d : Direction) :
    0 ≤ rs.encode n d ∧ rs.encode n d < 26 :=
  ⟨Base.mod_nonneg _, Base.mod_lt _⟩

theorem offset_cancel (r q y : Int) (hy0 : 0 ≤ y) (hy1 : y < 26) :
    Base.mod (Base.mod (y + r - q) - r + q) = y := by
  rw [Base.mod_eq_emod, Base.mod_eq_emod]; omega

theorem offset_restore (r q n : Int) (h0 : 0 ≤ n) (h1 : n < 26) :
    Base.mod (Base.mod (n - r + q) + r - q) = n := by
  rw [Base.mod_eq_emod, Base.mod_eq_emod]; omega

theorem RotorState.reverse_forward (rs : RotorState) (hr : RotorGood rs.rotor)
    {n : Int} (h0 : 0 ≤ n) (h1 : n < 26) :
    rs.encode (rs.encode n .Forward) .Reverse = n := by
  have ha0 : 0 ≤ Base.mod (n - rs.ringSetting + rs.position) := Base.mod_nonneg _
  have ha1 : Base.mod (n - rs.ringSetting + rs.position) < 26 := Base.mod_lt _
  have hp2 := readAt_range hr.1 (Base.mod (n - rs.ringSetting + rs.position))
  show Base.mod (rs.rotor.encode
      (Base.mod (rs.encode n .Forward - rs.ringSetting + rs.position)) .Reverse
    + rs.ringSetting - rs.position) = n
  have h2 : Base.mod (rs.encode n .Forward - rs.ringSetting + rs.position)
      = readAt rs.rotor.mapping (Base.mod (n - rs.ringSetting + rs.position)) :=
    offset_cancel _ _ _ hp2.1 hp2.2
  rw [h2]
  have h4 := hr.2.2.1 (Base.mod (n - rs.ringSetting + rs.position)).toNat
    ((Int.toNat_lt ha0).mpr (by exact_mod_cast ha1))
  rw [Int.toNat_of_nonneg ha0] at h4
  show Base.mod (readAt rs.rotor.reverseMapping
      (readAt rs.rotor.mapping (Base.mod (n - rs.ringSetting + rs.position)))
    + rs.ringSetting - rs.position) = n
  rw [h4]
  exact offset_restore _ _ _ h0 h1

theorem RotorState.forward_reverse (rs : RotorState) (hr : RotorGood rs.rotor)
    {n : Int} (h0 : 0 ≤ n) (h1 : n < 26) :
    rs.encode (rs.encode n .Reverse) .Forward = n := by
  have ha0 : 0 ≤ Base.mod (n - rs.ringSetting + rs.position) := Base.mod_nonneg _
  have ha1 : Base.mod (n - rs.ringSetting + rs.position) < 26 := Base.mod_lt _
  have hp2 := readAt_range hr.2.1 (Base.mod (n - rs.ringSetting + rs.position))
  show Base.mod (rs.rotor.encode
      (Base.mod (rs.encode n .Reverse - rs.ringSetting + rs.position)) .Forward
    + rs.ringSetting - rs.position) = n
  have h2 : Base.mod (rs.encode n .Reverse - rs.ringSetting + rs.position)
      = readAt rs.rotor.reverseMapping (Base.mod (n - rs.ringSetting + rs.position)) :=
    offset_cancel _ _ _ hp2.1 hp2.2
  rw [h2]
  have h4 := hr.2.2.2 (Base.mod (n - rs.ringSetting + rs.position)).toNat
    ((Int.toNat_lt ha0).mpr (by exact_mod_cast ha1))
  rw [Int.toNat_of_nonneg ha0] at h4
  show Base.mod (readAt rs.rotor.mapping
      (readAt rs.rotor.reverseMapping (Base.mod (n - rs.ringSetting + rs.position)))
    + rs.ringSetting - rs.position) = n
  rw [h4]
  exact offset_restore _ _ _ h0 h1

theorem foldF_range (l : List RotorState) {n : Int} (h0 : 0 ≤ n) (h1 : n < 26) :
    0 ≤ List.foldr (fun val acc => val.encode acc .Forward) n l ∧
      List.foldr (fun val acc => val.encode acc .Forward) n l < 26 := by
  cases l with
  | nil => exact ⟨h0, h1⟩
  | cons st rest => exact RotorState.encode_mod_range _ _ _

theorem foldR_range (l : List RotorState) {n : Int} (h0 : 0 ≤ n) (h1 : n < 26) :
    0 ≤ List.foldl (fun acc val => val.encode acc .Reverse) n l ∧
      List.foldl (fun acc val => val.encode acc .Reverse) n l < 26 := by
  induction l generalizing n with
  | nil => exact ⟨h0, h1⟩
  | cons st rest ih =>
    rw [List.foldl_cons]
    exact ih (RotorState.encode_mod_range st n .Reverse).1 (RotorState.encode_mod_range st n .Reverse).2

theorem foldR_foldF (l : List RotorState) (hg : ∀ st ∈ l, RotorGood st.rotor)
    {n : Int} (h0 : 0 ≤ n) (h1 : n < 26) :
    List.foldl (fun acc val => val.encode acc .Reverse)
      (List.foldr (fun val acc => val.encode acc .Forward) n l) l = n := by
  induction l with
  | nil => rfl
  | cons st rest ih =>
    rw [List.foldr_cons, List.foldl_cons]
    have hrest := foldF_range rest h0 h1
    rw [RotorState.reverse_forward st (hg st (by simp)) hrest.1 hrest.2]
    exact ih (fun s hs => hg s (by simp [hs])) 

theorem foldF_foldR (l : List RotorState) (hg : ∀ st ∈ l, RotorGood st.rotor)
    {n : Int} (h0 : 0 ≤ n) (h1 : n < 26) :
    List.foldr (fun val acc => val.encode acc .Forward)
      (List.foldl (fun acc val => val.encode acc .Reverse) n l) l = n := by
  induction l generalizing n with
  | nil => rfl
  | cons st rest ih =>
    rw [List.foldl_cons, List.foldr_cons]
    rw [ih (fun s hs => hg s (by simp [hs]))
      (RotorState.encode_mod_range st n .Reverse).1 (RotorState.encode_mod_range st n .Reverse).2]
    exact RotorState.forward_reverse st (hg st (by simp)) h0 h1

theorem advanceFrom_rotors (full : List RotorState) :
    ∀ (l : List RotorState) (i : Nat) (st : RotorState),
      st ∈ advanceFrom full l i → ∃ s ∈ l, st.rotor = s.rotor := by
  intro l
  induction l with
  | nil => intro i st h; cases h
  | cons s rest ih =>
    intro i st h
    rw [advanceFrom] at h
    rcases List.mem_cons.mp h with h1 | h1
    · refine ⟨s, by simp, ?_⟩
      rw [h1]
      by_cases hc : shouldAdvanceAt full i
      · simp [hc, RotorState.advance]
      · simp [hc]
    · obtain ⟨t, ht, he⟩ := ih (i + 1) st h1
      exact ⟨t, by simp [ht], he⟩

theorem GroupGood.advance {g : RotorGroup} (hg : GroupGood g) : GroupGood g.advance := by
  intro st hst
  obtain ⟨s, hs, he⟩ := advanceFrom_rotors g.rotorStates g.rotorStates 0 st hst
  rw [he]
  exact hg s hs

theorem symm_invol {m : List Int} (hs : SymmGood m)
    {n : Int} (h0 : 0 ≤ n) (h1 : n < 26) : readAt m (readAt m n) = n := by
  have := hs n.toNat ((Int.toNat_lt h0).mpr (by exact_mod_cast h1))
  rwa [Int.toNat_of_nonneg h0] at this

theorem noFix_ne {m : List Int} (hn : NoFix m) {n : Int} (h0 : 0 ≤ n) (h1 : n < 26) :
    readAt m n ≠ n := by
  have := hn n.toNat ((Int.toNat_lt h0).mpr (by exact_mod_cast h1))
  rwa [Int.toNat_of_nonneg h0] at this

theorem EnigmaGood.step {e : Enigma} (hg : EnigmaGood e) {n : Int} :
    EnigmaGood (e.encode n).1 :=
  ⟨hg.1, hg.2.1, GroupGood.advance hg.2.2.1, hg.2.2.2⟩

theorem Enigma.encode_fst (e : Enigma) (n : Int) :
    (e.encode n).1 = { e with rotorGroup := e.rotorGroup.advance } := rfl

/-- The output of one keystroke is the stated five-stage composition
read at the advanced rotor positions. -/
theorem Enigma.encode_snd (e : Enigma) (n : Int) :
    (e.encode n).2 =
      e.plugboard.encode ((e.rotorGroup.advance).encode (e.reflector.encode
        ((e.rotorGroup.advance).encode (e.plugboard.encode n) .Forward)) .Reverse) := rfl

theorem Enigma.encode_snd_range (e : Enigma) (hp : MappingGood e.plugboard.mapping)
    (n : Int) : 0 ≤ (e.encode n).2 ∧ (e.encode n).2 < 26 :=
  readAt_range hp _

/-- At fixed (post-advance) rotor positions, one keystroke's substitution
is an involution: feeding the output of `encode` into a machine in the
same pre-keystroke state gives back the input. -/
theorem Enigma.encode_invol (e : Enigma) (hg : EnigmaGood e)
    {n : Int} (h0 : 0 ≤ n) (h1 : n < 26) :
    (e.encode ((e.encode n).2)).2 = n := by
  obtain ⟨hpm, hps, hgg, hrm, hrs, hrf⟩ := hg
  have hgadv : ∀ st ∈ (e.rotorGroup.advance).rotorStates, RotorGood st.rotor :=
    GroupGood.advance hgg
  rw [Enigma.encode_snd, Enigma.encode_snd]
  have b1 := readAt_range hpm n
  have b2 := foldF_range (e.rotorGroup.advance).rotorStates b1.1 b1.2
  have b3 := readAt_range hrm ((e.rotorGroup.advance).encode (e.plugboard.encode n) .Forward)
  have b4 := foldR_range (e.rotorGroup.advance).rotorStates b3.1 b3.2
  show e.plugboard.encode ((e.rotorGroup.advance).encode (e.reflector.encode
        ((e.rotorGroup.advance).encode (e.plugboard.encode
          (e.plugboard.encode ((e.rotorGroup.advance).encode (e.reflector.encode
            ((e.rotorGroup.advance).encode (e.plugboard.encode n) .Forward)) .Reverse)))
          .Forward)) .Reverse) = n
  rw [show e.plugboard.encode
      (e.plugboard.encode ((e.rotorGroup.advance).encode (e.reflector.encode
        ((e.rotorGroup.advance).encode (e.plugboard.encode n) .Forward)) .Reverse))
      = (e.rotorGroup.advance).encode (e.reflector.encode
        ((e.rotorGroup.advance).encode (e.plugboard.encode n) .Forward)) .Reverse
    from symm_invol hps b4.1 b4.2]
  rw [show (e.rotorGroup.advance).encode ((e.rotorGroup.advance).encode (e.reflector.encode
        ((e.rotorGroup.advance).encode (e.plugboard.encode n) .Forward)) .Reverse) .Forward
      = e.reflector.encode ((e.rotorGroup.advance).encode (e.plugboard.encode n) .Forward)
    from foldF_foldR _ hgadv b3.1 b3.2]
  rw [show e.reflector.encode (e.reflector.encode
        ((e.rotorGroup.advance).encode (e.plugboard.encode n) .Forward))
      = (e.rotorGroup.advance).encode (e.plugboard.encode n) .Forward
    from symm_invol hrs b2.1 b2.2]
  rw [show (e.rotorGroup.advance).encode
        ((e.rotorGroup.advance).encode (e.plugboard.encode n) .Forward) .Reverse
      = e.plugboard.encode n
    from foldR_foldF _ hgadv b1.1 b1.2]
  exact symm_invol hps h0 h1

theorem Enigma.encodeNumbers_fst_plugboard (e : Enigma) (ns : List Int) :
    (e.encodeNumbers ns).1.plugboard = e.plugboard := by
  induction ns generalizing e with
  | nil => rfl
  | cons n rest ih =>
    show ((e.encode n).1.encodeNumbers rest).1.plugboard = _
    rw [ih]
    rfl

theorem Enigma.encodeNumbers_snd_range (e : Enigma) (hp : MappingGood e.plugboard.mapping)
    (ns : List Int) : ∀ c ∈ (e.encodeNumbers ns).2, 0 ≤ c ∧ c < 26 := by
  induction ns generalizing e with
  | nil => intro c hc; cases hc
  | cons n rest ih =>
    intro c hc
    rcases List.mem_cons.mp hc with h1 | h1
    · rw [h1]; exact Enigma.encode_snd_range e hp n
    · exact ih (e.encode n).1 hp c h1

/-- List-level reciprocity: running the outputs of an encode pass through
a machine restarted in the same initial state restores the inputs. -/
theorem Enigma.encodeNumbers_reciprocal (e : Enigma) (hg : EnigmaGood e) (ns : List Int)
    (hb : ∀ n ∈ ns, 0 ≤ n ∧ n < 26) :
    (e.encodeNumbers ((e.encodeNumbers ns).2)).2 = ns := by
  induction ns generalizing e with
  | nil => rfl
  | cons n rest ih =>
    have hn := hb n (by simp)
    have hrest : ∀ m ∈ rest, 0 ≤ m ∧ m < 26 := fun m hm => hb m (by simp [hm])
    show (e.encodeNumbers ((e.encode n).2 :: ((e.encode n).1.encodeNumbers rest).2)).2
      = n :: rest
    show (e.encode ((e.encode n).2)).2
        :: ((e.encode ((e.encode n).2)).1.encodeNumbers
            (((e.encode n).1.encodeNumbers rest).2)).2
      = n :: rest
    rw [Enigma.encode_invol e hg hn.1 hn.2]
    have hfst : (e.encode ((e.encode n).2)).1 = (e.encode n).1 := rfl
    rw [hfst, ih (e.encode n).1 (EnigmaGood.step hg) hrest]

theorem upper_toUpper {c : Char} (h1 : 65 ≤ c.toNat) (h2 : c.toNat ≤ 90) :
    c.toUpper = c := by
  unfold Char.toUpper
  rw [if_neg]
  omega

theorem upper_notSpace {c : Char} (h1 : 65 ≤ c.toNat) (h2 : c.toNat ≤ 90) :
    isJsSpace c = false := by
  unfold isJsSpace
  simp only [Bool.or_eq_false_iff, decide_eq_false_iff_not, Bool.and_eq_false_iff,
    decide_eq_false_iff_not]
  omega

theorem upper_charToNumber_range {c : Char} (h1 : 65 ≤ c.toNat) (h2 : c.toNat ≤ 90) :
    0 ≤ Base.charToNumber c ∧ Base.charToNumber c < 26 := by
  unfold Base.charToNumber Base.ALPHA
  rw [upper_toUpper h1 h2]
  constructor <;> omega

theorem upper_roundtrip {c : Char} (h1 : 65 ≤ c.toNat) (h2 : c.toNat ≤ 90) :
    Char.ofNat (Base.charToNumber c + Base.ALPHA).toNat = c := by
  unfold Base.charToNumber Base.ALPHA
  rw [upper_toUpper h1 h2]
  have h3 : ((c.toNat : Int) - 65 + 65).toNat = c.toNat := by omega
  rw [h3, Char.ofNat_toNat]

theorem gen_char_facts :
    ∀ k : Nat, k < 26 →
      65 ≤ (Char.ofNat (k + 65)).toNat ∧ (Char.ofNat (k + 65)).toNat ≤ 90 ∧
        Base.charToNumber (Char.ofNat (k + 65)) = (k : Int) := by decide

theorem gen_char_int (o : Int) (h0 : 0 ≤ o) (h1 : o < 26) :
    65 ≤ (Char.ofNat (o + Base.ALPHA).toNat).toNat ∧
      (Char.ofNat (o + Base.ALPHA).toNat).toNat ≤ 90 ∧
      Base.charToNumber (Char.ofNat (o + Base.ALPHA).toNat) = o := by
  have hk : (o + Base.ALPHA).toNat = o.toNat + 65 := by unfold Base.ALPHA; omega
  have hlt : o.toNat < 26 := by omega
  have hg := gen_char_facts o.toNat hlt
  rw [hk]
  exact ⟨hg.1, hg.2.1, by rw [hg.2.2, Int.toNat_of_nonneg h0]⟩

theorem stringToNumbers_numbersToString (os : List Int) (hb : ∀ o ∈ os, 0 ≤ o ∧ o < 26) :
    Base.stringToNumbers (Base.numbersToString os) = os := by
  unfold Base.stringToNumbers Base.numbersToString
  show (((os.map fun n => Char.ofNat (n + Base.ALPHA).toNat).map Char.toUpper).filter
    (fun c => !isJsSpace c)).map Base.charToNumber = os
  induction os with
  | nil => rfl
  | cons o rest ih =>
    have ho := hb o (by simp)
    have hg := gen_char_int o ho.1 ho.2
    rw [List.map_cons, List.map_cons, upper_toUpper hg.1 hg.2.1, List.filter_cons]
    rw [if_pos (by rw [upper_notSpace hg.1 hg.2.1]; rfl)]
    rw [List.map_cons, hg.2.2]
    rw [ih fun o ho => hb o (by simp [ho])]

theorem mapFilter_upper (l : List Char) (h : ∀ c ∈ l, 65 ≤ c.toNat ∧ c.toNat ≤ 90) :
    ((l.map Char.toUpper).filter fun c => !isJsSpace c).map Base.charToNumber
      = l.map Base.charToNumber := by
  induction l with
  | nil => rfl
  | cons c rest ih =>
    have hc := h c (by simp)
    rw [List.map_cons, upper_toUpper hc.1 hc.2, List.filter_cons]
    rw [if_pos (by rw [upper_notSpace hc.1 hc.2]; rfl)]
    rw [List.map_cons, List.map_cons]
    rw [ih fun c hcm => h c (by simp [hcm])]

theorem upper_charToNumber_mem_range (l : List Char)
    (h : ∀ c ∈ l, 65 ≤ c.toNat ∧ c.toNat ≤ 90) :
    ∀ n ∈ l.map Base.charToNumber, 0 ≤ n ∧ n < 26 := by
  intro n hn
  obtain ⟨c, hc, rfl⟩ := List.mem_map.mp hn
  exact upper_charToNumber_range (h c hc).1 (h c hc).2

theorem numbersToString_data (s : String)
    (h : ∀ c ∈ s.data, 65 ≤ c.toNat ∧ c.toNat ≤ 90) :
    Base.numbersToString (s.data.map Base.charToNumber) = s := by
  unfold Base.numbersToString
  rw [List.map_map]
  have he : s.data.map ((fun n => Char.ofNat (n + Base.ALPHA).toNat) ∘ Base.charToNumber)
      = s.data.map id := by
    apply List.map_congr_left
    intro c hc
    exact upper_roundtrip (h c hc).1 (h c hc).2
  rw [he, List.map_id]

instance (m : List Int) : Decidable (MappingGood m) := by unfold MappingGood; infer_instance

instance (m : List Int) : Decidable (SymmGood m) := by unfold SymmGood; infer_instance

instance (m : List Int) : Decidable (NoFix m) := by unfold NoFix; infer_instance

instance (r : Rotor) : Decidable (RotorGood r) := by unfold RotorGood; infer_instance

theorem validateErr_symm_good {m : List Int}
    (h : Base.validateErr m .Symmetric = none) : MappingGood m ∧ SymmGood m := by
  unfold Base.validateErr at h
  split_ifs at h with h1 h2 h3 h4 h5
  push_neg at h1 h2 h4
  have hmg : MappingGood m := by
    refine ⟨h1, fun v hv => ?_⟩
    have := h2 v hv
    omega
  refine ⟨hmg, fun i hi => ?_⟩
  have h6 := h4 (by decide) i (List.mem_range.mpr (by omega))
  have h7 : readAt m (i : Int) = m.getD i 0 := by
    unfold readAt
    norm_num
  rw [h7]
  unfold jsGetInt at h6
  split_ifs at h6 with h8
  unfold readAt
  exact Option.some_injective _ h6

theorem validateErr_refl_good {m : List Int}
    (h : Base.validateErr m .Reflective = none) :
    MappingGood m ∧ SymmGood m ∧ NoFix m := by
  unfold Base.validateErr at h
  split_ifs at h with h1 h2 h3 h4 h5
  push_neg at h1 h2 h4 h5
  have hmg : MappingGood m := by
    refine ⟨h1, fun v hv => ?_⟩
    have := h2 v hv
    omega
  have hget : ∀ i : Nat, readAt m (i : Int) = m.getD i 0 := by
    intro i
    unfold readAt
    norm_num
  refine ⟨hmg, fun i hi => ?_, fun i hi => ?_⟩
  · have h6 := h4 (by decide) i (List.mem_range.mpr (by omega))
    rw [hget]
    unfold jsGetInt at h6
    split_ifs at h6 with h8
    unfold readAt
    exact Option.some_injective _ h6
  · have h7 := h5 (by decide) i (List.mem_range.mpr (by omega))
    rw [hget]
    exact h7

theorem PlugBoard.make_plug_good {config : String} {pb : PlugBoard}
    (h : PlugBoard.make config = .ok pb) :
    MappingGood pb.mapping ∧ SymmGood pb.mapping := by
  simp only [PlugBoard.make] at h
  split_ifs at h with h1
  split at h
  next e hv => cases h
  next hv =>
    cases h
    exact validateErr_symm_good hv

theorem Reflector.make_refl_good {config : String} {r : Reflector}
    (h : Reflector.make config = .ok r) :
    MappingGood r.mapping ∧ SymmGood r.mapping ∧ NoFix r.mapping := by
  simp only [Reflector.make] at h
  split at h
  next e hv => cases h
  next hv =>
    cases h
    exact validateErr_refl_good hv

theorem Reflector.create_refl_good {l : ReflectorLabel} {r : Reflector}
    (h : Reflector.create l = .ok r) :
    MappingGood r.mapping ∧ SymmGood r.mapping ∧ NoFix r.mapping := by
  cases l <;> (unfold Reflector.create at h; exact Reflector.make_refl_good h)

/-- The goodness of the payload of a successfully constructed rotor. -/
def exceptRotorGood : Except VErr Rotor → Prop
  | .ok r => RotorGood r
  | .error _ => True

instance : (x : Except VErr Rotor) → Decidable (exceptRotorGood x)
  | .ok r => inferInstanceAs (Decidable (RotorGood r))
  | .error _ => inferInstanceAs (Decidable True)

theorem rotorCreate_exceptGood (l : RotorLabel) : exceptRotorGood (Rotor.create l) := by
  cases l <;> decide

theorem Rotor.create_rotor_good {l : RotorLabel} {r : Rotor}
    (h : Rotor.create l = .ok r) : RotorGood r := by
  have hg := rotorCreate_exceptGood l
  rw [h] at hg
  exact hg

theorem mapM_toOption_mem :
    ∀ (xs : List (Except VErr Rotor)) (ys : List Rotor),
      xs.mapM Except.toOption = some ys → ∀ y ∈ ys, ∃ x ∈ xs, x = .ok y := by
  intro xs
  induction xs with
  | nil =>
    intro ys h y hy
    simp only [List.mapM_nil, Option.pure_def, Option.some.injEq] at h
    rw [← h] at hy
    cases hy
  | cons x rest ih =>
    intro ys h y hy
    rw [List.mapM_cons] at h
    simp only [Option.pure_def, Option.bind_eq_bind, Option.bind_eq_some,
      Option.some.injEq] at h
    obtain ⟨b, hb, bs, hbs, hys⟩ := h
    rw [← hys] at hy
    rcases List.mem_cons.mp hy with h1 | h1
    · refine ⟨x, by simp, ?_⟩
      cases x with
      | ok r =>
        cases hb
        rw [h1]
      | error e => cases hb
    · obtain ⟨x2, hx2, he⟩ := ih bs hbs y h1
      exact ⟨x2, by simp [hx2], he⟩

theorem Enigma.create_enigma_good {labels : List RotorLabel} {rl : ReflectorLabel}
    {plug rings poss : String} {e : Enigma}
    (h : Enigma.create labels rl plug rings poss = some e) : EnigmaGood e := by
  simp only [Enigma.create] at h
  split_ifs at h with hlen
  split at h
  next er hpb => cases h
  next pb hpb =>
    split at h
    next hrt => cases h
    next rotors hrt =>
      split at h
      next er2 hrf => cases h
      next refl hrf =>
        cases h
        have hpg := PlugBoard.make_plug_good hpb
        have hrg := Reflector.create_refl_good hrf
        refine ⟨hpg.1, hpg.2, ?_, hrg.1, hrg.2.1, hrg.2.2⟩
        intro st hst
        obtain ⟨i, hi, rfl⟩ := List.mem_map.mp hst
        have hilt : i < rotors.length := List.mem_range.mp hi
        show RotorGood (rotors.getD i ⟨[], [], []⟩)
        rw [List.getD_eq_getElem _ _ hilt]
        have hmem : rotors[i] ∈ rotors := List.getElem_mem hilt
        obtain ⟨x, hx, hxe⟩ := mapM_toOption_mem _ rotors hrt _ hmem
        obtain ⟨l2, hl2, rfl⟩ := List.mem_map.mp hx
        exact Rotor.create_rotor_good hxe

theorem RotorGroup.encode_group_range (g : RotorGroup) {n : Int} (h0 : 0 ≤ n) (h1 : n < 26)
    (d : Direction) : 0 ≤ g.encode n d ∧ g.encode n d < 26 := by
  cases d with
  | Forward => exact foldF_range g.rotorStates h0 h1
  | Reverse => exact foldR_range g.rotorStates h0 h1

theorem RotorGroup.encode_rev_fwd (g : RotorGroup) (hg : GroupGood g) {n : Int}
    (h0 : 0 ≤ n) (h1 : n < 26) : g.encode (g.encode n .Forward) .Reverse = n :=
  foldR_foldF g.rotorStates hg h0 h1

theorem RotorGroup.encode_fwd_rev (g : RotorGroup) (hg : GroupGood g) {n : Int}
    (h0 : 0 ≤ n) (h1 : n < 26) : g.encode (g.encode n .Reverse) .Forward = n :=
  foldF_foldR g.rotorStates hg h0 h1

theorem advanceFrom_getElem (full : List RotorState) :
    ∀ (l : List RotorState) (j k : Nat),
      (advanceFrom full l j)[k]? =
        l[k]?.map fun st => if shouldAdvanceAt full (j + k) then st.advance else st := by
  intro l
  induction l with
  | nil => intro j k; simp [advanceFrom]
  | cons st rest ih =>
    intro j k
    cases k with
    | zero => simp [advanceFrom]
    | succ k =>
      show (advanceFrom full (st :: rest) j)[k + 1]? = _
      rw [advanceFrom]
      rw [List.getElem?_cons_succ, List.getElem?_cons_succ]
      rw [ih (j + 1) k]
      have harith : j + 1 + k = j + (k + 1) := by omega
      rw [harith]

theorem shouldAdvanceAt_iff (rs : List RotorState) (i : Nat) (h : i < rs.length) :
    shouldAdvanceAt rs i = true ↔
      (i = rs.length - 1 ∨ atNotchAt rs (i + 1) = true ∨
        (0 < i ∧ i < rs.length - 1 ∧ atNotchAt rs i = true)) := by
  unfold shouldAdvanceAt
  split_ifs with h1 h2 h3
  · exact iff_of_true rfl (Or.inl h1)
  · exact iff_of_true rfl (Or.inr (Or.inl h2))
  · simp only [Bool.and_eq_true, decide_eq_true_eq] at h3
    exact iff_of_true rfl (Or.inr (Or.inr ⟨Nat.pos_of_ne_zero h3.1, by omega, h3.2⟩))
  · refine iff_of_false (by simp) ?_
    rintro (hc | hc | hc)
    · exact h1 hc
    · exact h2 hc
    · simp only [Bool.and_eq_true, decide_eq_true_eq, not_and] at h3
      exact h3 (by omega) hc.2.2

theorem advanceRotorStates_getElem (rs : List RotorState) (i : Nat) :
    (RotorGroup.advanceRotorStates rs)[i]? = rs[i]?.map fun st =>
      if i = rs.length - 1 ∨ atNotchAt rs (i + 1) = true ∨
          (0 < i ∧ i < rs.length - 1 ∧ atNotchAt rs i = true)
      then st.advance else st := by
  rw [RotorGroup.advanceRotorStates, advanceFrom_getElem rs rs 0 i]
  cases hx : rs[i]? with
  | none => rfl
  | some st =>
    have hlt : i < rs.length := by
      by_contra hge
      rw [List.getElem?_eq_none (by omega)] at hx
      cases hx
    have hc := shouldAdvanceAt_iff rs i hlt
    simp only [Nat.zero_add, Option.map_some']
    exact congrArg some (if_congr hc rfl rfl)

/-- String-level reciprocity for a wellformed machine and an
uppercase-letter plaintext. -/
theorem Enigma.encodeString_reciprocal (e : Enigma) (hg : EnigmaGood e) (s : String)
    (hcup : ∀ c ∈ s.data, 65 ≤ c.toNat ∧ c.toNat ≤ 90) :
    (e.encodeString ((e.encodeString s).2)).2 = s := by
  have hns : Base.stringToNumbers s = s.data.map Base.charToNumber :=
    mapFilter_upper s.data hcup
  have hbs : ∀ n ∈ Base.stringToNumbers s, 0 ≤ n ∧ n < 26 := by
    rw [hns]
    exact upper_charToNumber_mem_range s.data hcup
  have hcs : ∀ c ∈ (e.encodeNumbers (Base.stringToNumbers s)).2, 0 ≤ c ∧ c < 26 :=
    Enigma.encodeNumbers_snd_range e hg.1 _
  have h2 : Base.stringToNumbers ((e.encodeString s).2)
      = (e.encodeNumbers (Base.stringToNumbers s)).2 :=
    stringToNumbers_numbersToString _ hcs
  show Base.numbersToString
      ((e.encodeNumbers (Base.stringToNumbers ((e.encodeString s).2))).2) = s
  rw [h2, Enigma.encodeNumbers_reciprocal e hg _ hbs, hns]
  exact numbersToString_data s hcup

theorem space_toUpper {c : Char} (h : isJsSpace c = true) : c.toUpper = c := by
  unfold isJsSpace at h
  simp only [Bool.or_eq_true, decide_eq_true_eq, Bool.and_eq_true] at h
  unfold Char.toUpper
  rw [if_neg]
  omega

/-- C1 — Reciprocity: for every configuration accepted by `Enigma.create`
and every plaintext of (uppercase) letters, encoding the ciphertext with a
machine freshly created from the identical settings restores the
plaintext, letter for letter. -/
theorem claim1_reciprocity
    (rotorLabel : List RotorLabel) (reflectorLabel : ReflectorLabel)
    (plugboardConfig ringSettings positions : String) (e : Enigma) (s : String)
    (hc : Enigma.create rotorLabel reflectorLabel plugboardConfig ringSettings positions
      = some e)
    (hs : ∀ c ∈ s.data, 65 ≤ c.toNat ∧ c.toNat ≤ 90) :
    (e.encodeString ((e.encodeString s).2)).2 = s :=
  Enigma.encodeString_reciprocal e (Enigma.create_enigma_good hc) s hs

/-- Witness for C1 at a concrete configuration (the repository's example
program settings) and plaintext. -/
theorem claim1_reciprocity_witness :
    ∃ e, Enigma.create [.VIII, .II, .III] .B "CT BX ZW PI VM NO" "AAA" "CUX" = some e ∧
      (e.encodeString ((e.encodeString "ATTACKATDAWN").2)).2 = "ATTACKATDAWN" := by
  cases hc : Enigma.create [.VIII, .II, .III] .B "CT BX ZW PI VM NO" "AAA" "CUX" with
  | none =>
    have hs : (Enigma.create [.VIII, .II, .III] .B "CT BX ZW PI VM NO" "AAA" "CUX").isSome
        = true := by decide
    rw [hc] at hs
    exact Bool.noConfusion hs
  | some e =>
    exact ⟨e, rfl, claim1_reciprocity _ _ _ _ _ e _ hc (by decide)⟩

/-- C2 — Known-answer test: rotors I, II, III, reflector B, no plugboard,
ring settings "AAA", positions "AAA", input "AAAAA" encodes to "BDZGO". -/
theorem claim2_known_answer :
    (Enigma.create [.I, .II, .III] .B "" "AAA" "AAA").map
      (fun e => (e.encodeString "AAAAA").2) = some "BDZGO" := by decide

/-- C3 — Stepping fidelity: the three-rotor group sharing a rotor whose
only notch is position 1 (letter "B"), started at [0,0,0], steps through
the six published position triples (exercising the double-step anomaly),
and in general each index advances exactly when the source's
snapshot-based rule fires: the last index always, an index left of the
last when its right neighbour sits at a notch, and a strictly middle
index also when it itself sits at a notch. -/
theorem claim3_stepping :
    ((Rotor.make "ABCDEFGHIJKLMNOPQRSTUVWXYZ" "B").toOption.map fun r =>
        (List.range 6).map fun k =>
          ((RotorGroup.advance)^[k + 1]
              ⟨[⟨r, 0, 0⟩, ⟨r, 0, 0⟩, ⟨r, 0, 0⟩]⟩).rotorStates.map
            fun st => st.position)
      = some [[0, 0, 1], [0, 1, 2], [1, 2, 3], [1, 2, 4], [1, 2, 5], [1, 2, 6]]
    ∧ ∀ (rs : List RotorState) (i : Nat),
        (RotorGroup.advanceRotorStates rs)[i]? = rs[i]?.map fun st =>
          if i = rs.length - 1 ∨ atNotchAt rs (i + 1) = true ∨
              (0 < i ∧ i < rs.length - 1 ∧ atNotchAt rs i = true)
          then st.advance else st :=
  ⟨by decide, advanceRotorStates_getElem⟩

/-- C4 — Pipeline order: one keystroke advances the rotor group exactly
once, then returns the five-stage composition plugboard, rotors forward,
reflector, rotors reverse, plugboard, all evaluated at the post-advance
positions. -/
theorem claim4_pipeline_order (e : Enigma) (n : Int) :
    e.encode n =
      ({ e with rotorGroup := e.rotorGroup.advance },
        e.plugboard.encode ((e.rotorGroup.advance).encode (e.reflector.encode
          ((e.rotorGroup.advance).encode (e.plugboard.encode n)
            Direction.Forward)) Direction.Reverse)) := rfl

/-- C5 — RotorState offset arithmetic: `encode` computes exactly the
spec's formula `mod26(rotor.encode(mod26(n - r + q), d) + r - q)`, and
`mod26` is always non-negative. -/
theorem claim5_offset_arithmetic :
    (∀ (rs : RotorState) (n : Int) (d : Direction),
        rs.encode n d =
          mod26 (rs.rotor.encode (mod26 (n - rs.ringSetting + rs.position)) d
            + rs.ringSetting - rs.position))
    ∧ ∀ x : Int, 0 ≤ mod26 x := by
  constructor
  · intro rs n d
    show Base.mod (rs.rotor.encode (Base.mod (n - rs.ringSetting + rs.position)) d
      + rs.ringSetting - rs.position) = _
    rw [Base.mod_eq_mod26, Base.mod_eq_mod26]
  · intro x
    rw [mod26_eq_emod]
    omega

deriving instance DecidableEq for Except

/-- The rational 12.5 = 25/2, given by its reduced numerator and
denominator so that kernel evaluation is direct. -/
def twelvePointFive : ℚ := ⟨25, 2, by decide, by decide⟩

/-- The rational k + 1 for a natural k, with denominator 1. -/
def ratSucc (k : Nat) : ℚ := ⟨(k : Int) + 1, 1, one_ne_zero, Nat.coprime_one_right _⟩

/-- A 26-element mapping whose first entry is the finite, in-range but
non-integral value 12.5 and whose remaining entries are 1..25. -/
def nonIntegralMapping : List JSNum :=
  JSNum.fin twelvePointFive :: ((List.range 25).map fun i => JSNum.fin (ratSucc i))

/-- C6 counterexample: a 26-element mapping containing the non-integral
value 12.5 passes `Base.validate` at `Basic` strictness — `assertValue`
tests only finiteness and the range, so no value error is raised. -/
theorem claim6_counterexample :
    JSNum.fin twelvePointFive ∈ nonIntegralMapping ∧ twelvePointFive.den = 2 ∧
    nonIntegralMapping.length = 26 ∧
    Base.validateNum nonIntegralMapping .Basic = none := by decide

/-- C6 (amended) — Value error: a 26-element mapping containing a
non-finite element, or one the JS comparisons put below 0 or at 26 or
above, fails validation with a value error at every strictness level. -/
theorem claim6_value_error (m : List JSNum) (vl : ValidationLevel)
    (hlen : m.length = 26)
    (hex : ∃ x ∈ m, x.isFinite = false ∨ x.ltZero = true ∨ x.ge26 = true) :
    Base.validateNum m vl = some .value := by
  have hp : (m.any fun x => !x.isFinite || x.ltZero || x.ge26) = true := by
    rw [List.any_eq_true]
    obtain ⟨x, hx, hor⟩ := hex
    refine ⟨x, hx, ?_⟩
    rcases hor with h | h | h <;> simp [h]
  unfold Base.validateNum
  rw [if_neg (by omega), if_pos hp]

/-- Witness for C6's amended claim: a mapping holding -3 draws the value
error at `Basic`. -/
theorem claim6_value_error_witness :
    Base.validateNum
      (JSNum.fin (-3) :: ((List.range 25).map fun i => JSNum.fin (ratSucc i)))
      .Basic = some .value :=
  claim6_value_error _ _ (by decide) (by decide)

/-- C7 counterexample: in "AB AC BD" the letter A appears in the two
different pairs AB and AC, yet the plugboard constructs successfully (the
final mapping A↔C, B↔D is a symmetric permutation); and for "AB AC",
where construction does fail, the error raised is the uniqueness error —
`assertUnique` fires on the duplicated value before `assertSymmetric`
runs — not a symmetry violation. -/
theorem claim7_counterexample :
    matchWordPairs (removeFirstWs ("AB AC BD".data.map Char.toUpper))
      = [('A', 'B'), ('A', 'C'), ('B', 'D')] ∧
    (PlugBoard.make "AB AC BD").toOption.isSome = true ∧
    PlugBoard.make "AB AC" = .error .unique := by decide

/-- C7 (amended) — Overlap outcomes and the identity default, at the
concrete configurations: "AB AC" (letter A in the two conflicting pairs
AB and AC) fails construction with the uniqueness error — the
overwritten swap leaves a duplicated value and `assertUnique` throws
before `assertSymmetric` runs; "AB AC BD" (letter A likewise in two
different pairs) is accepted, its net mapping A↔C, B↔D being a symmetric
permutation; "AB A0" (letter A in the pairs AB and A0) fails with the
value error, the digit writing the out-of-range value -17 into the
mapping; and the empty configuration yields the identity mapping, which
maps every symbol to itself. -/
theorem claim7_overlap_and_identity :
    PlugBoard.make "AB AC" = .error .unique ∧
    (PlugBoard.make "AB AC BD").toOption.isSome = true ∧
    PlugBoard.make "AB A0" = .error .value ∧
    PlugBoard.make "" = .ok ⟨identityMapping⟩ ∧
    (∀ i : Nat, i < 26 → PlugBoard.encode ⟨identityMapping⟩ (i : Int) = (i : Int)) := by
  decide

/-- C8 — No fixed points: a machine accepted by `Enigma.create` never
encodes a symbol in [0, 25] to itself, because the plugboard and rotor
stages invert and the reflector's validated mapping has no fixed
point. -/
theorem claim8_no_fixed_point
    (rotorLabel : List RotorLabel) (reflectorLabel : ReflectorLabel)
    (plugboardConfig ringSettings positions : String) (e : Enigma) (n : Int)
    (hc : Enigma.create rotorLabel reflectorLabel plugboardConfig ringSettings positions
      = some e)
    (_h0 : 0 ≤ n) (_h1 : n < 26) : (e.encode n).2 ≠ n := by
  intro heq
  obtain ⟨hpm, hps, hgg, hrm, hrs, hrf⟩ := Enigma.create_enigma_good hc
  have hgadv : GroupGood e.rotorGroup.advance := GroupGood.advance hgg
  rw [Enigma.encode_snd] at heq
  have b1 := readAt_range hpm n
  have b2 := RotorGroup.encode_group_range e.rotorGroup.advance b1.1 b1.2 .Forward
  have b3 := readAt_range hrm ((e.rotorGroup.advance).encode (e.plugboard.encode n) .Forward)
  have b4 := RotorGroup.encode_group_range e.rotorGroup.advance b3.1 b3.2 .Reverse
  have h2 := congrArg e.plugboard.encode heq
  rw [show e.plugboard.encode (e.plugboard.encode ((e.rotorGroup.advance).encode
      (e.reflector.encode ((e.rotorGroup.advance).encode (e.plugboard.encode n)
        .Forward)) .Reverse))
      = (e.rotorGroup.advance).encode (e.reflector.encode
        ((e.rotorGroup.advance).encode (e.plugboard.encode n) .Forward)) .Reverse
    from symm_invol hps b4.1 b4.2] at h2
  have h3 := congrArg (fun x => (e.rotorGroup.advance).encode x .Forward) h2
  simp only at h3
  rw [show (e.rotorGroup.advance).encode ((e.rotorGroup.advance).encode
      (e.reflector.encode ((e.rotorGroup.advance).encode (e.plugboard.encode n)
        .Forward)) .Reverse) .Forward
      = e.reflector.encode ((e.rotorGroup.advance).encode (e.plugboard.encode n) .Forward)
    from RotorGroup.encode_fwd_rev _ hgadv b3.1 b3.2] at h3
  exact noFix_ne hrf b2.1 b2.2 h3

/-- Witness for C8 at a concrete configuration and symbol. -/
theorem claim8_no_fixed_point_witness :
    ∃ e, Enigma.create [.I, .II, .III] .C "AB CD" "BBB" "KEY" = some e ∧
      (e.encode 5).2 ≠ 5 := by
  cases hc : Enigma.create [.I, .II, .III] .C "AB CD" "BBB" "KEY" with
  | none =>
    have hs : (Enigma.create [.I, .II, .III] .C "AB CD" "BBB" "KEY").isSome = true := by
      decide
    rw [hc] at hs
    exact Bool.noConfusion hs
  | some e =>
    exact ⟨e, rfl, claim8_no_fixed_point _ _ _ _ _ e 5 hc (by norm_num) (by norm_num)⟩

/-- C9 — RotorState.encode totality: for arbitrary integer symbol, ring
setting and position, the index handed to the rotor is `Base.mod`-
normalised into [0, 25], hence within both 26-element wiring tables, and
the result lands in [0, 25]. -/
theorem claim9_encode_total (rs : RotorState) (n : Int) (d : Direction)
    (hf : rs.rotor.mapping.length = 26) (hr : rs.rotor.reverseMapping.length = 26) :
    (Base.mod (n - rs.ringSetting + rs.position)).toNat < rs.rotor.mapping.length ∧
    (Base.mod (n - rs.ringSetting + rs.position)).toNat < rs.rotor.reverseMapping.length ∧
    0 ≤ rs.encode n d ∧ rs.encode n d < 26 := by
  have h0 := Base.mod_nonneg (n - rs.ringSetting + rs.position)
  have h1 := Base.mod_lt (n - rs.ringSetting + rs.position)
  refine ⟨?_, ?_, (RotorState.encode_mod_range rs n d).1, (RotorState.encode_mod_range rs n d).2⟩
  · rw [hf]; omega
  · rw [hr]; omega

/-- Witness for C9 at a concrete rotor state and an out-of-range
symbol. -/
theorem claim9_encode_total_witness :
    0 ≤ RotorState.encode ⟨⟨identityMapping, identityMapping, []⟩, 3, 7⟩ (-100) .Forward :=
  (claim9_encode_total ⟨⟨identityMapping, identityMapping, []⟩, 3, 7⟩ (-100) .Forward
    (by decide) (by decide)).2.2.1

/-- C10 — Whitespace-only strings are a no-op: `encodeString` returns the
empty string and leaves the machine (in particular every rotor position)
unchanged, because stripping reduces the input to no symbols and
per-symbol encode is never invoked. -/
theorem claim10_whitespace_noop (e : Enigma) (s : String)
    (h : ∀ c ∈ s.data, isJsSpace c = true) :
    e.encodeString s = (e, "") := by
  have hz : Base.stringToNumbers s = [] := by
    unfold Base.stringToNumbers
    have hf : (s.data.map Char.toUpper).filter (fun c => !isJsSpace c) = [] := by
      rw [List.filter_eq_nil_iff]
      intro c hc
      obtain ⟨c0, hc0, rfl⟩ := List.mem_map.mp hc
      rw [space_toUpper (h c0 hc0), h c0 hc0]
      decide
    rw [hf]
    rfl
  unfold Enigma.encodeString
  rw [hz]
  rfl

/-- Witness for C10: a machine encodes the one-blank string to the empty
string without any state change. -/
theorem claim10_whitespace_noop_witness :
    Enigma.encodeString ⟨⟨identityMapping⟩, ⟨[]⟩, ⟨identityMapping⟩⟩ " " =
      (⟨⟨identityMapping⟩, ⟨[]⟩, ⟨identityMapping⟩⟩, "") :=
  claim10_whitespace_noop _ _ (by decide)
